import Mathlib

/-!
# Verification of the ordering-rule engine of `advent-of-code` (2024 Day 05)

Shallow embedding of the core of `src/2024/Day05/day_05_part_1_solution.py`
and `src/2024/Day05/day_05_part_2_solution.py`:

* `check_rules`            — the validation predicate (identical in both files);
* `find_rule_violation`    — the violation-locating scan of part 2;
* `move_page_number_left`  — the single repair move of part 2;
* `extract_middle_number`  — middle extraction (identical in both files);
* `read_ordering_rules`    — the rule-section parser (identical in both files);
* `repairFuel`             — the `while not check_rules: ... move ...` repair
  loop of part 2's `solve`, written with explicit fuel (`none` = the loop is
  still running when the fuel runs out).

Sequences are modelled as Lean lists of an arbitrary `DecidableEq` item type
(the Python code works on the comma-split string tokens of an update line;
item equality is token equality).  A parsed rule `"a|b"` is the pair `(a, b)`.
Input lines (for the parser) are modelled as `List Char`.
-/

namespace AoC2024Day5

variable {α : Type} [DecidableEq α]

/-- Python `list.index`: the index of the first occurrence of `a` in `l`
(`l.length` when absent, which never happens at the call sites below). -/
def pyIndex (l : List α) (a : α) : Nat :=
  l.findIdx (fun z => decide (z = a))

/-- The shared inner-loop test of `check_rules` and `find_rule_violation`:
rule `r` fires at the current `page` when `r` is `page|x` with `x` occurring
somewhere in the update (`pages`) and already in the confirmed prefix
(`checked`). -/
def ruleFires (pages checked : List α) (page : α) (r : α × α) : Bool :=
  decide (r.1 = page ∧ r.2 ∈ pages ∧ r.2 ∈ checked)

/-- The scan of `check_rules`: walk the update left to right carrying the
already-confirmed prefix `checked`; answer `false` as soon as some rule fires. -/
def checkRulesAux (pages : List α) (rules : List (α × α)) :
    List α → List α → Bool
  | _, [] => true
  | checked, page :: rest =>
    if rules.any (ruleFires pages checked page) then false
    else checkRulesAux pages rules (checked ++ [page]) rest

/-- `check_rules(update, rules)` of both solution files. -/
def check_rules (update : List α) (rules : List (α × α)) : Bool :=
  checkRulesAux update rules [] update

/-- The scan of `find_rule_violation`: like `checkRulesAux`, but on the first
firing rule `r` it returns `(update.index(page), checked.index(r.2))`;
the Python function raises `RuntimeError` when the scan finishes, modelled
as `none`. -/
def findRuleViolationAux (pages : List α) (rules : List (α × α)) :
    List α → List α → Option (Nat × Nat)
  | _, [] => none
  | checked, page :: rest =>
    match rules.find? (ruleFires pages checked page) with
    | some r => some (pyIndex pages page, pyIndex checked r.2)
    | none => findRuleViolationAux pages rules (checked ++ [page]) rest

/-- `find_rule_violation(update, rules)` of `day_05_part_2_solution.py`. -/
def find_rule_violation (update : List α) (rules : List (α × α)) :
    Option (Nat × Nat) :=
  findRuleViolationAux update rules [] update

/-- `move_page_number_left(update, index_of_origin, index_to_move)` of
`day_05_part_2_solution.py`: `update.pop(index_of_origin)` followed by
`update.insert(index_to_move, page_number)`.  When `index_of_origin` is out
of range Python would raise `IndexError`; that case is unreachable at the one
call site (the loop in `solve`), and is modelled as returning the list
unchanged. -/
def move_page_number_left (update : List α)
    (index_of_origin index_to_move : Nat) : List α :=
  if h : index_of_origin < update.length then
    (update.eraseIdx index_of_origin).insertIdx index_to_move
      (update.get ⟨index_of_origin, h⟩)
  else update

/-- `extract_middle_number(update)`: the element at index `len(update) // 2`
(`none` models Python's `IndexError` on an empty list, which cannot arise
from a `split`). -/
def extract_middle_number (update : List α) : Option α :=
  update.get? (update.length / 2)

/-- The repair loop of `solve` in `day_05_part_2_solution.py`:
`while not check_rules(u, rules): p, q = find_rule_violation(u, rules);
u = move_page_number_left(u, p, q)`, with explicit fuel.  `none` means the
loop has not finished within `fuel` iterations (the Python loop simply keeps
running). -/
def repairFuel (rules : List (α × α)) : Nat → List α → Option (List α)
  | 0, update => if check_rules update rules then some update else none
  | n + 1, update =>
    if check_rules update rules then some update
    else
      match find_rule_violation update rules with
      | some (p, q) => repairFuel rules n (move_page_number_left update p q)
      | none => none

/-- Position `j` of `S` is mis-ordered: some rule requires `S[j]` to precede
an item sitting at an earlier position. -/
def violAt (rules : List (α × α)) (S : List α) (j : Nat) : Prop :=
  ∃ (hj : j < S.length) (i : Nat) (hi : i < j),
    (S.get ⟨j, hj⟩, S.get ⟨i, Nat.lt_trans hi hj⟩) ∈ rules

/-- Weighted violated-pair sum: scanning `rest` left to right with confirmed
prefix `checked`, add `w page` once for every already-seen item that `page`
ought to precede.  With `w = fun _ => 1` this is exactly the number of
out-of-order pairs `i < j` (a rule `(S j, S i)` exists). -/
def measAux (rules : List (α × α)) (w : α → Nat) :
    List α → List α → Nat
  | _, [] => 0
  | checked, page :: rest =>
    w page * checked.countP (fun z => decide ((page, z) ∈ rules)) +
      measAux rules w (checked ++ [page]) rest

/-- Weighted violated-pair sum of a whole sequence. -/
def meas (rules : List (α × α)) (w : α → Nat) (S : List α) : Nat :=
  measAux rules w [] S

/-- The number of out-of-order pairs of `S`: pairs of positions `i < j` such
that some rule `(S j, S i)` requires the later item to come first. -/
def outOfOrderCount (rules : List (α × α)) (S : List α) : Nat :=
  meas rules (fun _ => 1) S

/-- A text line of the puzzle input, as its character list. -/
abbrev Line := List Char

/-- The loop of `read_ordering_rules`: collect the lines containing `'|'`
into `acc`; at the first line without it, return the collected rules together
with `lines.index(line) + 1`, the start of the updates section.  When every
line contains `'|'` (or there are no lines at all) the Python loop finishes
without `break` and the following use of `rules_end_index` raises
`UnboundLocalError`, modelled as `none`. -/
def readOrderingRulesAux (lines : List Line) :
    List Line → List Line → Option (List Line × Nat)
  | _, [] => none
  | acc, line :: rest =>
    if line.contains '|' then readOrderingRulesAux lines (acc ++ [line]) rest
    else some (acc, pyIndex lines line + 1)

/-- `read_ordering_rules` of both solution files, taking the already-split
lines of the puzzle text. -/
def read_ordering_rules (lines : List Line) : Option (List Line × Nat) :=
  readOrderingRulesAux lines [] lines

/-- The Scenario A rule set of the specification:
47|53, 97|13, 97|61, 97|47, 75|29, 61|13, 75|53, 29|13, 97|53, 61|53, 97|29,
47|61, 75|61, 47|29, 75|47, 61|29, 53|13. -/
def scenarioRules : List (Nat × Nat) :=
  [(47, 53), (97, 13), (97, 61), (97, 47), (75, 29), (61, 13), (75, 53),
   (29, 13), (97, 53), (61, 53), (97, 29), (47, 61), (75, 61), (47, 29),
   (75, 47), (61, 29), (53, 13)]

/-! ## The scan condition versus `violAt` -/

theorem length_lt_of_append_cons {S checked rest : List α} {page : α}
    (hS : checked ++ page :: rest = S) : checked.length < S.length := by
  subst hS
  simp only [List.length_append, List.length_cons]
  omega

theorem get_append_cons {S checked rest : List α} {page : α}
    (hS : checked ++ page :: rest = S) :
    S.get ⟨checked.length, length_lt_of_append_cons hS⟩ = page := by
  subst hS
  simp [List.get_eq_getElem, List.getElem_append_right (Nat.le_refl _)]

theorem get_append_left {S checked rest : List α} {i : Nat}
    (hS : checked ++ rest = S) (hi : i < checked.length)
    (hi' : i < S.length) : S.get ⟨i, hi'⟩ = checked.get ⟨i, hi⟩ := by
  subst hS
  simp [List.get_eq_getElem, List.getElem_append_left hi]

/-- At the scan position `checked.length`, "some rule fires" is exactly
`violAt` of the absolute sequence. -/
theorem any_ruleFires_iff_violAt (rules : List (α × α))
    {S checked rest : List α} {page : α} (hS : checked ++ page :: rest = S) :
    rules.any (ruleFires S checked page) = true ↔
      violAt rules S checked.length := by
  have hn : checked.length < S.length := length_lt_of_append_cons hS
  have hpage : S.get ⟨checked.length, hn⟩ = page := get_append_cons hS
  constructor
  · rintro hany
    rcases List.any_eq_true.mp hany with ⟨r, hr, hfire⟩
    rcases of_decide_eq_true hfire with ⟨h1, _h2, h3⟩
    rcases List.mem_iff_getElem.mp h3 with ⟨i, hi, hget⟩
    refine ⟨hn, i, hi, ?_⟩
    have hiS : i < S.length := Nat.lt_trans hi hn
    have : S.get ⟨i, hiS⟩ = r.2 := by
      rw [get_append_left (by simpa using hS) hi hiS]
      exact hget
    rw [hpage, this, ← h1]
    exact hr
  · rintro ⟨hj, i, hi, hmem⟩
    refine List.any_eq_true.mpr ⟨_, hmem, ?_⟩
    refine decide_eq_true ?_
    have hiS : i < S.length := Nat.lt_trans hi hj
    refine ⟨hpage, List.get_mem _ _ _, ?_⟩
    have : S.get ⟨i, hiS⟩ = checked.get ⟨i, hi⟩ :=
      get_append_left (by simpa using hS) hi hiS
    rw [this]
    exact List.get_mem _ _ _

/-- `checkRulesAux` succeeds exactly when no position from the current scan
point on is mis-ordered. -/
theorem checkRulesAux_eq_true_iff (rules : List (α × α)) (S : List α) :
    ∀ (rest checked : List α), checked ++ rest = S →
      (checkRulesAux S rules checked rest = true ↔
        ∀ j, checked.length ≤ j → ¬ violAt rules S j) := by
  intro rest
  induction rest with
  | nil =>
    intro checked hS
    simp only [checkRulesAux, true_iff]
    intro j hj hviol
    rcases hviol with ⟨hjS, _⟩
    have : S.length = checked.length := by simp [← hS]
    omega
  | cons page rest ih =>
    intro checked hS
    by_cases hc : rules.any (ruleFires S checked page) = true
    · simp only [checkRulesAux, hc, if_true]
      constructor
      · intro h; exact absurd h (by simp)
      · intro h
        exact absurd ((any_ruleFires_iff_violAt rules hS).mp hc)
          (h checked.length (Nat.le_refl _))
    · simp only [checkRulesAux, hc, if_false, Bool.false_eq_true]
      rw [ih (checked ++ [page]) (by simpa using hS)]
      have hnv : ¬ violAt rules S checked.length := fun hv =>
        hc ((any_ruleFires_iff_violAt rules hS).mpr hv)
      constructor
      · intro h j hj
        rcases Nat.eq_or_lt_of_le hj with heq | hlt
        · exact heq ▸ hnv
        · exact h j (by simpa using hlt)
      · intro h j hj
        exact h j (by simp at hj; omega)

/-! ## `pyIndex` (Python `list.index`) -/

theorem pyIndex_cons (b : α) (t : List α) (a : α) :
    pyIndex (b :: t) a = if b = a then 0 else pyIndex t a + 1 := by
  by_cases h : b = a <;> simp [pyIndex, List.findIdx_cons, h]

theorem pyIndex_eq_of_first {l : List α} {a : α} {k : Nat} (hk : k < l.length)
    (ha : l.get ⟨k, hk⟩ = a)
    (hfirst : ∀ j (hj : j < k), l.get ⟨j, Nat.lt_trans hj hk⟩ ≠ a) :
    pyIndex l a = k := by
  induction l generalizing k with
  | nil => simp at hk
  | cons b t ih =>
    cases k with
    | zero =>
      simp only [List.get_eq_getElem, List.getElem_cons_zero] at ha
      simp [pyIndex_cons, ha]
    | succ k =>
      have hb : b ≠ a := by
        have := hfirst 0 (Nat.succ_pos k)
        simpa using this
      rw [pyIndex_cons]
      simp only [hb, if_false]
      have hk' : k < t.length := by simpa using hk
      have ha' : t.get ⟨k, hk'⟩ = a := by simpa using ha
      have hfirst' : ∀ j (hj : j < k), t.get ⟨j, Nat.lt_trans hj hk'⟩ ≠ a := by
        intro j hj
        have := hfirst (j + 1) (by omega)
        simpa using this
      rw [ih hk' ha' hfirst']

theorem pyIndex_get_of_nodup {l : List α} (hnd : l.Nodup) {k : Nat}
    (hk : k < l.length) : pyIndex l (l.get ⟨k, hk⟩) = k := by
  refine pyIndex_eq_of_first hk rfl ?_
  intro j hj hget
  have : j = k := by
    have := (@List.Nodup.getElem_inj_iff α l hnd j (Nat.lt_trans hj hk)
      k hk).mp (by simpa using hget)
    exact this
  omega

theorem pyIndex_lt_length_of_mem {l : List α} {a : α} (h : a ∈ l) :
    pyIndex l a < l.length := by
  induction l with
  | nil => simp at h
  | cons b t ih =>
    rw [pyIndex_cons]
    by_cases hb : b = a
    · simp [hb]
    · simp only [hb, if_false, List.length_cons]
      have : a ∈ t := by
        rcases List.mem_cons.mp h with h | h
        · exact absurd h.symm hb
        · exact h
      exact Nat.succ_lt_succ (ih this)

theorem get_pyIndex {l : List α} {a : α} (h : a ∈ l)
    (hlt : pyIndex l a < l.length) : l.get ⟨pyIndex l a, hlt⟩ = a := by
  induction l with
  | nil => simp at h
  | cons b t ih =>
    by_cases hb : b = a
    · simp [pyIndex_cons, hb]
    · have hmem : a ∈ t := by
        rcases List.mem_cons.mp h with h | h
        · exact absurd h.symm hb
        · exact h
      have hlt' : pyIndex t a < t.length := pyIndex_lt_length_of_mem hmem
      have : (b :: t).get ⟨pyIndex (b :: t) a, hlt⟩ =
          t.get ⟨pyIndex t a, hlt'⟩ := by
        simp only [pyIndex_cons, hb, if_false]
        simp
      rw [this, ih hmem hlt']

/-! ## Specification of `find_rule_violation` -/

/-- `findRuleViolationAux` answers `none` exactly when `checkRulesAux`
answers `true`: the two scans test the same condition at every step. -/
theorem findRuleViolationAux_eq_none_iff (rules : List (α × α))
    (pages : List α) :
    ∀ (rest checked : List α),
      (findRuleViolationAux pages rules checked rest = none ↔
        checkRulesAux pages rules checked rest = true) := by
  intro rest
  induction rest with
  | nil => intro checked; simp [findRuleViolationAux, checkRulesAux]
  | cons page rest ih =>
    intro checked
    simp only [findRuleViolationAux, checkRulesAux]
    rcases hfind : rules.find? (ruleFires pages checked page) with _ | r
    · have hany : rules.any (ruleFires pages checked page) = false := by
        rw [List.any_eq_false]
        intro r hr
        exact List.find?_eq_none.mp hfind r hr
      simp [hany, ih]
    · have hany : rules.any (ruleFires pages checked page) = true :=
        List.any_eq_true.mpr
          ⟨r, List.mem_of_find?_eq_some hfind, List.find?_some hfind⟩
      simp [hany]

/-- **C6.** `find_rule_violation` raises (`none`) iff the update is valid
(`check_rules` is `true`); whenever the update is invalid it returns a
position pair and raises nothing. -/
theorem find_rule_violation_none_iff_valid (rules : List (α × α))
    (S : List α) :
    (find_rule_violation S rules = none ↔ check_rules S rules = true) ∧
      (check_rules S rules = false ↔
        ∃ pq, find_rule_violation S rules = some pq) := by
  have h : find_rule_violation S rules = none ↔ check_rules S rules = true :=
    findRuleViolationAux_eq_none_iff rules S S []
  refine ⟨h, ?_⟩
  constructor
  · intro hfalse
    have hne : find_rule_violation S rules ≠ none := by
      intro hnone
      rw [h.mp hnone] at hfalse
      exact Bool.noConfusion hfalse
    rcases Option.ne_none_iff_exists.mp hne with ⟨pq, hpq⟩
    exact ⟨pq, hpq.symm⟩
  · rintro ⟨pq, hpq⟩
    cases hcheck : check_rules S rules with
    | false => rfl
    | true =>
      rw [h.mpr hcheck] at hpq
      exact Option.noConfusion hpq

/-- What the `find_rule_violation` scan returns when it finds something:
the pair `(p, q)` where `p` is the current (absolute, for a duplicate-free
update) position, `q < p`, the rule `(S p, S q)` is in the rule set, and no
position between the start of the scan and `p` is mis-ordered. -/
theorem findRuleViolationAux_some_spec (rules : List (α × α)) (S : List α)
    (hnd : S.Nodup) :
    ∀ (rest checked : List α), checked ++ rest = S →
      ∀ p q, findRuleViolationAux S rules checked rest = some (p, q) →
        ∃ (hp : p < S.length) (hq : q < p),
          checked.length ≤ p ∧
          (S.get ⟨p, hp⟩, S.get ⟨q, Nat.lt_trans hq hp⟩) ∈ rules ∧
          ∀ j, checked.length ≤ j → j < p → ¬ violAt rules S j := by
  intro rest
  induction rest with
  | nil => intro checked _ p q h; simp [findRuleViolationAux] at h
  | cons page rest ih =>
    intro checked hS p q hpq
    have hn : checked.length < S.length := length_lt_of_append_cons hS
    have hpage : S.get ⟨checked.length, hn⟩ = page := get_append_cons hS
    simp only [findRuleViolationAux] at hpq
    rcases hfind : rules.find? (ruleFires S checked page) with _ | r
    · rw [hfind] at hpq
      have hres := ih (checked ++ [page]) (by simpa using hS) p q hpq
      rcases hres with ⟨hp, hq, hle, hmem, hnone⟩
      refine ⟨hp, hq, ?_, hmem, ?_⟩
      · simp at hle; omega
      · intro j hj hjp
        rcases Nat.eq_or_lt_of_le hj with heq | hlt
        · intro hviol
          have hfires := (any_ruleFires_iff_violAt rules hS).mpr (heq ▸ hviol)
          rcases List.any_eq_true.mp hfires with ⟨r', hr', hfire⟩
          exact absurd hfire (by simpa using List.find?_eq_none.mp hfind r' hr')
        · exact hnone j (by simp; omega) hjp
    · rw [hfind] at hpq
      have hfire := List.find?_some hfind
      rcases of_decide_eq_true hfire with ⟨h1, _h2, h3⟩
      have hrmem := List.mem_of_find?_eq_some hfind
      have hinj : (pyIndex S page, pyIndex checked r.2) = (p, q) :=
        Option.some.inj hpq
      have hpval : p = checked.length := by
        have hpy : pyIndex S page = checked.length := by
          rw [← hpage]
          exact pyIndex_get_of_nodup hnd hn
        have := congrArg Prod.fst hinj
        simp at this
        omega
      have hqval : q = pyIndex checked r.2 := by
        have := congrArg Prod.snd hinj
        simp at this
        omega
      have hqc : q < checked.length := by
        rw [hqval]
        exact pyIndex_lt_length_of_mem h3
      have hp : p < S.length := by omega
      have hq : q < p := by omega
      have hqS : q < S.length := by omega
      have hSp : S.get ⟨p, hp⟩ = r.1 := by
        have hpg : S.get ⟨p, hp⟩ = page := by
          subst hpval
          exact hpage
        rw [hpg, h1]
      have hSq : S.get ⟨q, hqS⟩ = r.2 := by
        rw [get_append_left (by simpa using hS) hqc hqS]
        have hcq : checked.get ⟨q, hqc⟩ =
            checked.get ⟨pyIndex checked r.2, pyIndex_lt_length_of_mem h3⟩ := by
          congr 1
          exact Fin.ext hqval
        rw [hcq]
        exact get_pyIndex h3 _
      refine ⟨hp, hq, by omega, ?_, ?_⟩
      · have hmemgoal : (S.get ⟨p, hp⟩, S.get ⟨q, hqS⟩) ∈ rules := by
          rw [hSp, hSq]
          exact hrmem
        exact hmemgoal
      · intro j hj hjp _
        omega

/-- **C5.** For every rule set and duplicate-free invalid update,
`find_rule_violation` returns the pair `(p, q)` of the first violation found
by the left-to-right scan: `p` is the position of the mis-positioned item
(every earlier position is violation-free), `q < p` is the position, inside
the confirmed prefix, of an item that `S p` is required to precede. -/
theorem find_rule_violation_spec (rules : List (α × α)) (S : List α)
    (hnd : S.Nodup) (hinvalid : check_rules S rules = false) :
    ∃ p q, find_rule_violation S rules = some (p, q) ∧
      ∃ (hp : p < S.length) (hq : q < p),
        (S.get ⟨p, hp⟩, S.get ⟨q, Nat.lt_trans hq hp⟩) ∈ rules ∧
        ∀ j, j < p → ¬ violAt rules S j := by
  rcases (find_rule_violation_none_iff_valid rules S).2.mp hinvalid with
    ⟨⟨p, q⟩, hpq⟩
  rcases findRuleViolationAux_some_spec rules S hnd S [] rfl p q hpq with
    ⟨hp, hq, _, hmem, hnone⟩
  exact ⟨p, q, hpq, hp, hq, hmem, fun j hj => hnone j (Nat.zero_le j) hj⟩

/-- **C1.** `check_rules(S, R)` is `true` iff there is no pair of positions
`i < j` in `S` such that `R` contains the rule `(S j, S i)`, i.e. no rule
requires the item at the later position to precede the item at the earlier
position. -/
theorem check_rules_correct (rules : List (α × α)) (S : List α) :
    check_rules S rules = true ↔
      ∀ (i j : Nat) (hij : i < j) (hj : j < S.length),
        (S.get ⟨j, hj⟩, S.get ⟨i, Nat.lt_trans hij hj⟩) ∉ rules := by
  unfold check_rules
  rw [checkRulesAux_eq_true_iff rules S S [] rfl]
  constructor
  · intro h i j hij hj hmem
    exact h j (Nat.zero_le j) ⟨hj, i, hij, hmem⟩
  · rintro h j _ ⟨hj, i, hi, hmem⟩
    exact h i j hi hj hmem

/-! ## The single repair move -/

theorem insertIdx_append_of_le (A B : List α) (x : α) :
    ∀ q, q ≤ A.length →
      (A ++ B).insertIdx q x = A.take q ++ x :: (A.drop q ++ B) := by
  induction A with
  | nil =>
    intro q hq
    have : q = 0 := by simpa using hq
    subst this
    simp [List.insertIdx_zero]
  | cons a A ih =>
    intro q hq
    cases q with
    | zero => simp [List.insertIdx_zero]
    | succ q =>
      simp only [List.cons_append, List.insertIdx_succ_cons, List.take_succ_cons,
        List.drop_succ_cons]
      rw [ih q (by simpa using hq)]

theorem move_eq_take_drop {S : List α} {p q : Nat} (hq : q ≤ p)
    (hp : p < S.length) :
    move_page_number_left S p q =
      S.take q ++ S.get ⟨p, hp⟩ :: ((S.take p).drop q ++ S.drop (p + 1)) := by
  unfold move_page_number_left
  rw [dif_pos hp, List.eraseIdx_eq_take_drop_succ]
  have hlen : q ≤ (S.take p).length := by
    simp only [List.length_take]
    omega
  rw [insertIdx_append_of_le _ _ _ q hlen, List.take_take]
  have : q ⊓ p = q := Nat.min_eq_left hq
  rw [this]

/-- The sequence decomposes around the moved element. -/
theorem self_eq_take_drop {S : List α} {p q : Nat} (hq : q ≤ p)
    (hp : p < S.length) :
    S = S.take q ++ ((S.take p).drop q ++ S.get ⟨p, hp⟩ :: S.drop (p + 1)) := by
  have h1 : S.take q ++ (S.take p).drop q = S.take p := by
    have : S.take q = (S.take p).take q := by
      rw [List.take_take, Nat.min_eq_left hq]
    rw [this, List.take_append_drop]
  have h2 : S.drop p = S.get ⟨p, hp⟩ :: S.drop (p + 1) := by
    rw [List.get_eq_getElem]
    exact List.drop_eq_getElem_cons hp
  calc S = S.take p ++ S.drop p := (List.take_append_drop p S).symm
    _ = (S.take q ++ (S.take p).drop q) ++ S.drop p := by rw [h1]
    _ = S.take q ++ ((S.take p).drop q ++ S.get ⟨p, hp⟩ :: S.drop (p + 1)) := by
        rw [List.append_assoc, h2]

/-- The move keeps the multiset of items: the result is a permutation. -/
theorem move_perm {S : List α} {p q : Nat} (hq : q ≤ p) (hp : p < S.length) :
    (move_page_number_left S p q).Perm S := by
  rw [move_eq_take_drop hq hp]
  conv_rhs => rw [self_eq_take_drop hq hp]
  exact List.Perm.append_left _ (List.perm_middle).symm

/-- **C4.** A single repair step with `targetIndex < sourceIndex` removes the
item at `sourceIndex` and reinserts it at `targetIndex`: the result keeps the
length, has the moved item at `targetIndex`, directly before the item it had
violated (the old occupant of `targetIndex`, now at `targetIndex + 1`), and
all other items keep their relative order (deleting the moved item from the
result gives exactly the original with its `sourceIndex` entry deleted). -/
theorem move_page_number_left_spec (S : List α) (s t : Nat)
    (hts : t < s) (hs : s < S.length) :
    (move_page_number_left S s t).length = S.length ∧
    (∃ (h1 : t < (move_page_number_left S s t).length),
      (move_page_number_left S s t).get ⟨t, h1⟩ = S.get ⟨s, hs⟩) ∧
    (∃ (h2 : t + 1 < (move_page_number_left S s t).length),
      (move_page_number_left S s t).get ⟨t + 1, h2⟩ =
        S.get ⟨t, Nat.lt_trans hts hs⟩) ∧
    (move_page_number_left S s t).eraseIdx t = S.eraseIdx s := by
  have hT : move_page_number_left S s t =
      (S.eraseIdx s).insertIdx t (S.get ⟨s, hs⟩) := by
    unfold move_page_number_left
    rw [dif_pos hs]
  have hlen_erase : (S.eraseIdx s).length = S.length - 1 := by
    rw [List.length_eraseIdx]
    simp [hs]
  have ht_le : t ≤ (S.eraseIdx s).length := by omega
  have hlenT : (move_page_number_left S s t).length = S.length := by
    rw [hT, List.length_insertIdx t _ ht_le, hlen_erase]
    omega
  refine ⟨hlenT, ⟨by omega, ?_⟩, ⟨by omega, ?_⟩, ?_⟩
  · simp only [List.get_eq_getElem]
    rw [List.getElem_of_eq hT (by omega)]
    exact List.getElem_insertIdx_self _ _ _ ht_le
  · simp only [List.get_eq_getElem]
    rw [List.getElem_of_eq hT (by omega)]
    have h0 : t + 0 < (S.eraseIdx s).length := by omega
    have := List.getElem_insertIdx_add_succ (S.eraseIdx s) (S.get ⟨s, hs⟩) t 0 h0
    simp only [Nat.add_zero] at this
    rw [this]
    have herase : S.eraseIdx s = S.take s ++ S.drop (s + 1) :=
      List.eraseIdx_eq_take_drop_succ S s
    rw [List.getElem_of_eq herase (by omega)]
    have htlt : t < (S.take s).length := by
      simp only [List.length_take]
      omega
    rw [List.getElem_append_left htlt]
    simp [List.getElem_take]
  · rw [hT, List.eraseIdx_insertIdx]

/-! ## `extract_middle_number` -/

/-- **C9.** For a non-empty update of length `n`, `extract_middle_number`
returns the element at 0-based index `n / 2`; in particular on
`[75, 47, 61, 53, 29]` it returns `61`, and on a one-element update it
returns that element. -/
theorem extract_middle_number_spec :
    (∀ (l : List α), l ≠ [] →
      ∃ (h : l.length / 2 < l.length),
        extract_middle_number l = some (l.get ⟨l.length / 2, h⟩)) ∧
    extract_middle_number ([75, 47, 61, 53, 29] : List Nat) = some 61 ∧
    ∀ (x : α), extract_middle_number [x] = some x := by
  refine ⟨?_, by decide, fun x => by simp [extract_middle_number]⟩
  intro l hl
  have hpos : 0 < l.length := List.length_pos.mpr hl
  have h : l.length / 2 < l.length := Nat.div_lt_self hpos (by omega)
  exact ⟨h, List.get?_eq_get h⟩

/-! ## The repair loop on valid input -/

/-- **C7.** On an update that already satisfies `check_rules`, the repair
loop performs zero moves and returns the update unchanged, whatever the
fuel. -/
theorem repair_valid_identity (rules : List (α × α)) (S : List α)
    (h : check_rules S rules = true) :
    ∀ n, repairFuel rules n S = some S := by
  intro n
  cases n with
  | zero => simp [repairFuel, h]
  | succ n => simp [repairFuel, h]

/-! ## Laws of the weighted violated-pair measure -/

theorem measAux_append (rules : List (α × α)) (w : α → Nat) :
    ∀ (l₁ l₂ checked : List α),
      measAux rules w checked (l₁ ++ l₂) =
        measAux rules w checked l₁ + measAux rules w (checked ++ l₁) l₂ := by
  intro l₁
  induction l₁ with
  | nil => intro l₂ checked; simp [measAux]
  | cons a l₁ ih =>
    intro l₂ checked
    simp only [List.cons_append, measAux, List.append_eq]
    rw [ih, Nat.add_assoc]
    have hc : (checked ++ [a]) ++ l₁ = checked ++ a :: l₁ := by simp
    rw [hc]

theorem measAux_perm_checked (rules : List (α × α)) (w : α → Nat) :
    ∀ (l checked₁ checked₂ : List α), checked₁.Perm checked₂ →
      measAux rules w checked₁ l = measAux rules w checked₂ l := by
  intro l
  induction l with
  | nil => intro c₁ c₂ _; simp [measAux]
  | cons a l ih =>
    intro c₁ c₂ hp
    simp only [measAux]
    rw [hp.countP_eq, ih (c₁ ++ [a]) (c₂ ++ [a]) (hp.append_right [a])]

theorem measAux_checked_snoc (rules : List (α × α)) (w : α → Nat) (x : α) :
    ∀ (l checked : List α),
      measAux rules w (checked ++ [x]) l =
        measAux rules w checked l +
          (l.map (fun y => w y * if (y, x) ∈ rules then 1 else 0)).sum := by
  intro l
  induction l with
  | nil => simp [measAux]
  | cons a l ih =>
    intro checked
    simp only [measAux, List.map_cons, List.sum_cons]
    rw [List.countP_append]
    have hx : List.countP (fun z => decide ((a, z) ∈ rules)) [x] =
        if (a, x) ∈ rules then 1 else 0 := by
      by_cases h : (a, x) ∈ rules <;> simp [List.countP_cons, h]
    rw [hx]
    have hperm : ((checked ++ [x]) ++ [a]).Perm ((checked ++ [a]) ++ [x]) := by
      rw [List.append_assoc, List.append_assoc]
      exact List.Perm.append_left checked List.perm_append_comm
    rw [measAux_perm_checked rules w l _ _ hperm, ih (checked ++ [a])]
    ring

/-- The single accounting identity behind every repair step: moving `x` from
behind the block `D` to directly in front of it trades the violations of `x`
against `D` for the violations of `D` against `x`. -/
theorem measAux_split (rules : List (α × α)) (w : α → Nat)
    (A D C : List α) (x : α) :
    meas rules w (A ++ x :: (D ++ C)) +
        w x * D.countP (fun z => decide ((x, z) ∈ rules)) =
      meas rules w (A ++ (D ++ x :: C)) +
        (D.map (fun y => w y * if (y, x) ∈ rules then 1 else 0)).sum := by
  unfold meas
  have h1 : measAux rules w [] (A ++ x :: (D ++ C)) =
      measAux rules w [] A + measAux rules w A (x :: (D ++ C)) := by
    rw [measAux_append]
    simp
  have h2 : measAux rules w A (x :: (D ++ C)) =
      w x * A.countP (fun z => decide ((x, z) ∈ rules)) +
        (measAux rules w A D +
          (D.map (fun y => w y * if (y, x) ∈ rules then 1 else 0)).sum) +
        measAux rules w ((A ++ [x]) ++ D) C := by
    simp only [measAux]
    rw [measAux_append, measAux_checked_snoc]
    ring
  have h3 : measAux rules w [] (A ++ (D ++ x :: C)) =
      measAux rules w [] A +
        (measAux rules w A D + measAux rules w (A ++ D) (x :: C)) := by
    rw [measAux_append, measAux_append]
    simp
  have h4 : measAux rules w (A ++ D) (x :: C) =
      w x * (A ++ D).countP (fun z => decide ((x, z) ∈ rules)) +
        measAux rules w ((A ++ D) ++ [x]) C := by
    simp only [measAux]
  have h5 : measAux rules w ((A ++ [x]) ++ D) C =
      measAux rules w ((A ++ D) ++ [x]) C := by
    apply measAux_perm_checked
    rw [List.append_assoc, List.append_assoc]
    exact List.Perm.append_left A List.perm_append_comm
  rw [h1, h2, h3, h4, h5, List.countP_append]
  ring

/-- A repair step strictly shrinks the measure as soon as the gained
`D`-against-`x` weight is below the dropped `x`-against-`D` weight. -/
theorem meas_move_lt (rules : List (α × α)) (w : α → Nat) (S : List α)
    {p q : Nat} (hq : q < p) (hp : p < S.length)
    (hkey :
      (((S.take p).drop q).map
          (fun y => w y * if (y, S.get ⟨p, hp⟩) ∈ rules then 1 else 0)).sum <
        w (S.get ⟨p, hp⟩) *
          ((S.take p).drop q).countP
            (fun z => decide ((S.get ⟨p, hp⟩, z) ∈ rules))) :
    meas rules w (move_page_number_left S p q) < meas rules w S := by
  have hsplit := measAux_split rules w (S.take q) ((S.take p).drop q)
    (S.drop (p + 1)) (S.get ⟨p, hp⟩)
  rw [← move_eq_take_drop (le_of_lt hq) hp] at hsplit
  rw [← self_eq_take_drop (le_of_lt hq) hp] at hsplit
  have h2 := Nat.add_lt_add_left hkey (meas rules w S)
  rw [← hsplit] at h2
  exact Nat.lt_of_add_lt_add_right h2

/-! ## Repair convergence -/

theorem get_mem_drop_take {S : List α} {p q : Nat} (hq : q < p)
    (hp : p < S.length) (hqS : q < S.length) :
    S.get ⟨q, hqS⟩ ∈ (S.take p).drop q := by
  have hlen : ((S.take p).drop q).length = p - q := by
    rw [List.length_drop, List.length_take, Nat.min_eq_left (le_of_lt hp)]
  have hlt : 0 < ((S.take p).drop q).length := by omega
  have h0 : ((S.take p).drop q)[0] = S.get ⟨q, hqS⟩ := by
    simp [List.getElem_drop, List.getElem_take]
  rw [← h0]
  exact List.getElem_mem hlt

theorem mem_drop_take_getElem {S : List α} {p q : Nat} (hp : p ≤ S.length)
    {y : α} (hy : y ∈ (S.take p).drop q) :
    ∃ j, q ≤ j ∧ j < p ∧ ∃ (hj : j < S.length), S.get ⟨j, hj⟩ = y := by
  rcases List.mem_iff_getElem.mp hy with ⟨i, hi, hget⟩
  have hlen : ((S.take p).drop q).length = p - q := by
    rw [List.length_drop, List.length_take, Nat.min_eq_left hp]
  have hi' : i < p - q := hlen ▸ hi
  refine ⟨q + i, Nat.le_add_right _ _, by omega, by omega, ?_⟩
  rw [← hget, List.get_eq_getElem]
  simp [List.getElem_drop, List.getElem_take]

theorem key_bound_pow (rules : List (α × α)) (f : α → Nat) (W : Nat)
    (D : List α) (x v : α) (hlen : D.length < W)
    (hfy : ∀ y ∈ D, (y, x) ∈ rules → f y < f x)
    (hv : v ∈ D) (hxv : (x, v) ∈ rules) :
    (D.map (fun y => W ^ f y * if (y, x) ∈ rules then 1 else 0)).sum <
      W ^ f x * D.countP (fun z => decide ((x, z) ∈ rules)) := by
  have hWpos : 0 < W := lt_of_le_of_lt (Nat.zero_le _) hlen
  have hcnt : 0 < D.countP (fun z => decide ((x, z) ∈ rules)) :=
    List.countP_pos.mpr ⟨v, hv, decide_eq_true hxv⟩
  cases hfx : f x with
  | zero =>
    have hzero :
        ∀ t ∈ D.map (fun y => W ^ f y * if (y, x) ∈ rules then 1 else 0),
          t = 0 := by
      intro t ht
      rcases List.mem_map.mp ht with ⟨y, hy, rfl⟩
      by_cases hyx : (y, x) ∈ rules
      · have hlt := hfy y hy hyx
        rw [hfx] at hlt
        exact (Nat.not_lt_zero _ hlt).elim
      · simp [hyx]
    rw [List.sum_eq_zero hzero]
    exact Nat.mul_pos (pow_pos hWpos _) hcnt
  | succ k =>
    have hbound :
        ∀ t ∈ D.map (fun y => W ^ f y * if (y, x) ∈ rules then 1 else 0),
          t ≤ W ^ k := by
      intro t ht
      rcases List.mem_map.mp ht with ⟨y, hy, rfl⟩
      by_cases hyx : (y, x) ∈ rules
      · have hlt := hfy y hy hyx
        rw [hfx] at hlt
        simp only [hyx, if_true, Nat.mul_one]
        exact Nat.pow_le_pow_right hWpos (by omega)
      · simp [hyx]
    have hsum := List.sum_le_card_nsmul _ _ hbound
    rw [List.length_map, smul_eq_mul] at hsum
    calc (D.map (fun y => W ^ f y * if (y, x) ∈ rules then 1 else 0)).sum
        ≤ D.length * W ^ k := hsum
      _ < W * W ^ k := mul_lt_mul_of_pos_right hlen (pow_pos hWpos k)
      _ = W ^ (k + 1) := by rw [pow_succ, Nat.mul_comm]
      _ ≤ W ^ (k + 1) * D.countP (fun z => decide ((x, z) ∈ rules)) :=
          Nat.le_mul_of_pos_right _ hcnt

/-- One repair step on a duplicate-free invalid update strictly shrinks the
`W`-exponential rank measure, provided the rank `f` increases along every
applicable rule and `W` is at least the update's length. -/
theorem step_decrease_pow (rules : List (α × α)) (S : List α) (f : α → Nat)
    (W : Nat) (hW : S.length ≤ W) (hnd : S.Nodup)
    (hrank : ∀ r ∈ rules, r.1 ∈ S → r.2 ∈ S → f r.1 < f r.2)
    (hinvalid : check_rules S rules = false) :
    ∃ p q, find_rule_violation S rules = some (p, q) ∧
      (move_page_number_left S p q).Perm S ∧
      meas rules (fun u => W ^ f u) (move_page_number_left S p q) <
        meas rules (fun u => W ^ f u) S := by
  obtain ⟨p, q, hfind, hp, hq, hmem, -⟩ :=
    find_rule_violation_spec rules S hnd hinvalid
  have hqS : q < S.length := by omega
  refine ⟨p, q, hfind, move_perm (le_of_lt hq) hp,
    meas_move_lt rules _ S hq hp ?_⟩
  apply key_bound_pow rules f W _ _ (S.get ⟨q, hqS⟩)
  · have htp : (S.take p).length = p := by
      rw [List.length_take, Nat.min_eq_left (le_of_lt hp)]
    rw [List.length_drop, htp]
    omega
  · intro y hy hyx
    have hyS : y ∈ S := List.take_subset p S (List.drop_subset q (S.take p) hy)
    exact hrank (y, S.get ⟨p, hp⟩) hyx hyS (List.get_mem _ _ _)
  · exact get_mem_drop_take hq hp hqS
  · exact hmem

theorem repairFuel_succ_invalid (rules : List (α × α)) (n : Nat) (S : List α)
    (hcheck : check_rules S rules = false) {p q : Nat}
    (hfind : find_rule_violation S rules = some (p, q)) :
    repairFuel rules (n + 1) S =
      repairFuel rules n (move_page_number_left S p q) := by
  simp [repairFuel, hcheck, hfind]

/-- Fuel bounded by the measure suffices for the repair loop to reach a
valid permutation of its input. -/
theorem repairFuel_reaches_valid (rules : List (α × α)) (f : α → Nat)
    (W : Nat) :
    ∀ (M : Nat) (S : List α), S.length ≤ W →
      meas rules (fun u => W ^ f u) S ≤ M → S.Nodup →
      (∀ r ∈ rules, r.1 ∈ S → r.2 ∈ S → f r.1 < f r.2) →
      ∃ t, repairFuel rules M S = some t ∧ check_rules t rules = true ∧
        t.Perm S := by
  intro M
  induction M with
  | zero =>
    intro S hW hM hnd hrank
    cases hcheck : check_rules S rules with
    | true => exact ⟨S, by simp [repairFuel, hcheck], hcheck, List.Perm.refl S⟩
    | false =>
      exfalso
      obtain ⟨p, q, -, -, hlt⟩ :=
        step_decrease_pow rules S f W hW hnd hrank hcheck
      omega
  | succ M ih =>
    intro S hW hM hnd hrank
    cases hcheck : check_rules S rules with
    | true => exact ⟨S, by simp [repairFuel, hcheck], hcheck, List.Perm.refl S⟩
    | false =>
      obtain ⟨p, q, hfind, hperm, hlt⟩ :=
        step_decrease_pow rules S f W hW hnd hrank hcheck
      have hndT : (move_page_number_left S p q).Nodup := hperm.symm.nodup hnd
      have hlenT : (move_page_number_left S p q).length = S.length :=
        hperm.length_eq
      have hrankT : ∀ r ∈ rules, r.1 ∈ move_page_number_left S p q →
          r.2 ∈ move_page_number_left S p q → f r.1 < f r.2 := by
        intro r hr h1 h2
        exact hrank r hr (hperm.mem_iff.mp h1) (hperm.mem_iff.mp h2)
      obtain ⟨t, hrf, hcheckt, hpermt⟩ :=
        ih (move_page_number_left S p q) (by rw [hlenT]; exact hW)
          (by omega) hndT hrankT
      exact ⟨t, by rw [repairFuel_succ_invalid rules M S hcheck hfind]; exact hrf,
        hcheckt, hpermt.trans hperm⟩

/-- **C2 (amended: duplicate-free updates).** For every rule set that is
acyclic over the items co-occurring in a duplicate-free update `S` (acyclicity
given by a rank `f` that increases along every rule applicable to `S`), the
repair loop terminates in an update that satisfies the validation predicate
and is a permutation of `S`; moreover, when the applicable rules form a full
precedence order on the items present, each single move strictly reduces the
count of out-of-order pairs. -/
theorem repair_convergence (rules : List (α × α)) (S : List α) (f : α → Nat)
    (hnd : S.Nodup)
    (hrank : ∀ r ∈ rules, r.1 ∈ S → r.2 ∈ S → f r.1 < f r.2) :
    (∃ n t, repairFuel rules n S = some t ∧ check_rules t rules = true ∧
        t.Perm S) ∧
    ((∀ a ∈ S, ∀ b ∈ S, a ≠ b → (a, b) ∈ rules ∨ (b, a) ∈ rules) →
      check_rules S rules = false →
      ∀ p q, find_rule_violation S rules = some (p, q) →
        outOfOrderCount rules (move_page_number_left S p q) <
          outOfOrderCount rules S) := by
  constructor
  · obtain ⟨t, h1, h2, h3⟩ := repairFuel_reaches_valid rules f S.length
      (meas rules (fun u => S.length ^ f u) S) S (Nat.le_refl _)
      (Nat.le_refl _) hnd hrank
    exact ⟨_, t, h1, h2, h3⟩
  · intro hfull hinvalid p q hfind
    obtain ⟨p₀, q₀, hfind₀, hp₀, hq₀, hmem₀, hclean₀⟩ :=
      find_rule_violation_spec rules S hnd hinvalid
    have hpq : p₀ = p ∧ q₀ = q := by
      have := hfind₀.symm.trans hfind
      simpa using this
    obtain ⟨rfl, rfl⟩ := hpq
    have hqS : q₀ < S.length := by omega
    unfold outOfOrderCount
    apply meas_move_lt rules _ S hq₀ hp₀
    -- no item of the moved-over block is required to precede the moved item
    have hno : ∀ y ∈ (S.take p₀).drop q₀,
        (y, S.get ⟨p₀, hp₀⟩) ∉ rules := by
      intro y hy hyx
      obtain ⟨j, hqj, hjp, hjS, hyj⟩ :=
        mem_drop_take_getElem (le_of_lt hp₀) hy
      have hyS : y ∈ S := by
        rw [← hyj]
        exact List.get_mem _ _ _
      have hxS : S.get ⟨p₀, hp₀⟩ ∈ S := List.get_mem _ _ _
      have hvS : S.get ⟨q₀, hqS⟩ ∈ S := List.get_mem _ _ _
      have hxv := hrank _ hmem₀ hxS hvS
      dsimp only at hxv
      rcases Nat.eq_or_lt_of_le hqj with heq | hqj'
      · -- the head of the block is the violated item itself
        have hyv : y = S.get ⟨q₀, hqS⟩ := by
          rw [← hyj]
          subst heq
          rfl
        have hyxlt := hrank _ hyx hyS hxS
        dsimp only at hyxlt
        rw [hyv] at hyxlt
        omega
      · -- an inner block item: totality plus the clean prefix give a cycle
        have hyv_not : (y, S.get ⟨q₀, hqS⟩) ∉ rules := by
          intro hyv
          refine hclean₀ j hjp ⟨hjS, q₀, hqj', ?_⟩
          rw [hyj]
          exact hyv
        have hne : y ≠ S.get ⟨q₀, hqS⟩ := by
          intro heq
          have hgq : S.get ⟨j, hjS⟩ = S.get ⟨q₀, hqS⟩ := by rw [hyj, heq]
          have hjq : j = q₀ :=
            (@List.Nodup.getElem_inj_iff α S hnd j hjS q₀ hqS).mp hgq
          omega
        rcases hfull y hyS (S.get ⟨q₀, hqS⟩) hvS hne with hcase | hcase
        · exact hyv_not hcase
        · have h1 := hrank _ hcase hvS hyS
          have h2 := hrank _ hyx hyS hxS
          dsimp only at h1 h2
          omega
    -- the gained weight is zero, the dropped weight at least one
    have hcnt : 0 < ((S.take p₀).drop q₀).countP
        (fun z => decide ((S.get ⟨p₀, hp₀⟩, z) ∈ rules)) :=
      List.countP_pos.mpr ⟨S.get ⟨q₀, hqS⟩, get_mem_drop_take hq₀ hp₀ hqS,
        decide_eq_true hmem₀⟩
    have hzero : (((S.take p₀).drop q₀).map
        (fun y => (1 : Nat) * if (y, S.get ⟨p₀, hp₀⟩) ∈ rules then 1 else 0)).sum
        = 0 := by
      apply List.sum_eq_zero
      intro t ht
      rcases List.mem_map.mp ht with ⟨y, hy, rfl⟩
      show (1 : Nat) * (if (y, S.get ⟨p₀, hp₀⟩) ∈ rules then 1 else 0) = 0
      rw [if_neg (hno y hy), Nat.mul_zero]
    calc (((S.take p₀).drop q₀).map
          (fun y => (1 : Nat) * if (y, S.get ⟨p₀, hp₀⟩) ∈ rules then 1 else 0)).sum
        = 0 := hzero
      _ < 1 * ((S.take p₀).drop q₀).countP
            (fun z => decide ((S.get ⟨p₀, hp₀⟩, z) ∈ rules)) := by
          rw [Nat.one_mul]
          exact hcnt

/-- The two-state loop refuting C2 as stated: with the acyclic rule set
`[(1, 2)]` the update `[1, 2, 1]` (which contains a duplicate) is bounced
between `[1, 2, 1]` and `[2, 1, 1]` forever. -/
theorem repair_cycle_duplicate :
    ∀ n, repairFuel ([(1, 2)] : List (Nat × Nat)) n ([1, 2, 1] : List Nat) = none ∧
      repairFuel ([(1, 2)] : List (Nat × Nat)) n ([2, 1, 1] : List Nat) = none := by
  intro n
  induction n with
  | zero => exact ⟨by decide, by decide⟩
  | succ n ih =>
    constructor
    · rw [repairFuel_succ_invalid ([(1, 2)] : List (Nat × Nat)) n
        ([1, 2, 1] : List Nat) (by decide) (p := 0) (q := 1) (by decide)]
      have hm : move_page_number_left ([1, 2, 1] : List Nat) 0 1 = [2, 1, 1] := by
        decide
      rw [hm]
      exact ih.2
    · rw [repairFuel_succ_invalid ([(1, 2)] : List (Nat × Nat)) n
        ([2, 1, 1] : List Nat) (by decide) (p := 1) (q := 0) (by decide)]
      have hm : move_page_number_left ([2, 1, 1] : List Nat) 1 0 = [1, 2, 1] := by
        decide
      rw [hm]
      exact ih.1

/-- **C2, counterexample.** The rule set `[(1, 2)]` is acyclic over the items
co-occurring in `[1, 2, 1]` (the identity is a rank), yet the repair loop
never terminates on `[1, 2, 1]`: the claim fails for sequences with
duplicated items. -/
theorem repair_convergence_counterexample :
    (∀ r ∈ ([(1, 2)] : List (Nat × Nat)), r.1 ∈ ([1, 2, 1] : List Nat) →
      r.2 ∈ ([1, 2, 1] : List Nat) → id r.1 < id r.2) ∧
    ¬ ∃ n t, repairFuel ([(1, 2)] : List (Nat × Nat)) n ([1, 2, 1] : List Nat) =
        some t ∧ check_rules t [(1, 2)] = true ∧ t.Perm [1, 2, 1] := by
  refine ⟨by decide, ?_⟩
  rintro ⟨n, t, ht, -, -⟩
  rw [(repair_cycle_duplicate n).1] at ht
  exact Option.noConfusion ht

/-! ## The rule-section parser -/

theorem readOrderingRulesAux_eq_none_iff (lines : List Line) :
    ∀ (rest acc : List Line),
      (readOrderingRulesAux lines acc rest = none ↔
        ∀ l ∈ rest, l.contains '|' = true) := by
  intro rest
  induction rest with
  | nil => intro acc; simp [readOrderingRulesAux]
  | cons line rest ih =>
    intro acc
    by_cases hc : '|' ∈ line
    · simp [readOrderingRulesAux, hc, ih]
    · simp [readOrderingRulesAux, hc]

/-- **C10.** `read_ordering_rules` hits Python's unbound-variable error
(modelled as `none`) exactly when every input line contains the separator
`'|'` (in particular on empty input); as soon as some line lacks the
separator it returns a rules/start-index pair. -/
theorem read_ordering_rules_total_iff (lines : List Line) :
    (read_ordering_rules lines = none ↔
      ∀ l ∈ lines, l.contains '|' = true) ∧
    ((∃ l ∈ lines, l.contains '|' = false) →
      ∃ rs, read_ordering_rules lines = some rs) := by
  have hiff : read_ordering_rules lines = none ↔
      ∀ l ∈ lines, l.contains '|' = true :=
    readOrderingRulesAux_eq_none_iff lines lines []
  refine ⟨hiff, ?_⟩
  rintro ⟨l, hl, hlf⟩
  rcases hopt : read_ordering_rules lines with _ | rs
  · have h1 := hiff.mp hopt l hl
    rw [hlf] at h1
    exact Bool.noConfusion h1
  · exact ⟨rs, rfl⟩

theorem readOrderingRulesAux_spec (lines : List Line) (k : Nat)
    (hk : k < lines.length)
    (hbad : (lines.get ⟨k, hk⟩).contains '|' = false)
    (hgood : ∀ j (hj : j < k),
      (lines.get ⟨j, Nat.lt_trans hj hk⟩).contains '|' = true) :
    ∀ d m, m + d = k →
      readOrderingRulesAux lines (lines.take m) (lines.drop m) =
        some (lines.take k, k + 1) := by
  intro d
  induction d with
  | zero =>
    intro m hm
    have hm' : k = m := by omega
    subst hm'
    rw [List.drop_eq_getElem_cons hk]
    have hb : (lines[k]).contains '|' = false := hbad
    have hpy : pyIndex lines lines[k] = k := by
      refine pyIndex_eq_of_first hk rfl ?_
      intro j hj heq
      have hcontra := hgood j hj
      rw [heq] at hcontra
      rw [hcontra] at hb
      exact Bool.noConfusion hb
    have hmem : ¬ ('|' ∈ lines[k]) := by simpa using hb
    simp [readOrderingRulesAux, hmem, hpy]
  | succ d ih =>
    intro m hm
    have hmk : m < k := by omega
    have hmS : m < lines.length := by omega
    rw [List.drop_eq_getElem_cons hmS]
    have hg : (lines[m]).contains '|' = true := hgood m hmk
    have htake : lines.take m ++ [lines[m]] = lines.take (m + 1) := by
      have hcat := List.take_concat_get lines m hmS
      rw [List.concat_eq_append] at hcat
      exact hcat
    simp only [readOrderingRulesAux, hg, if_true, htake]
    exact ih (m + 1) (by omega)

/-- **C8.** When position `k` holds the first line without the separator
`'|'`, `read_ordering_rules` returns exactly the `k` lines before it as the
rule list and `k + 1` as the start index of the updates section: the
separator-less line is the rules/updates boundary, never an error. -/
theorem read_ordering_rules_spec (lines : List Line) (k : Nat)
    (hk : k < lines.length)
    (hbad : (lines.get ⟨k, hk⟩).contains '|' = false)
    (hgood : ∀ j (hj : j < k),
      (lines.get ⟨j, Nat.lt_trans hj hk⟩).contains '|' = true) :
    read_ordering_rules lines = some (lines.take k, k + 1) := by
  have h := readOrderingRulesAux_spec lines k hk hbad hgood k 0 (by omega)
  simpa using h

/-! ## The specification's repair scenario -/

/-- **C3, counterexample.** Under the Scenario A rule set as listed in the
specification, the sequence `75,97,47,61,53` is *not* invalid (the listed
rules contain no rule `97|75`): `check_rules` accepts it, the repair loop
returns it unchanged, and no amount of fuel ever turns it into
`97,75,47,61,53`. -/
theorem scenario_repair_counterexample :
    check_rules ([75, 97, 47, 61, 53] : List Nat) scenarioRules = true ∧
    repairFuel scenarioRules 20 ([75, 97, 47, 61, 53] : List Nat) =
      some [75, 97, 47, 61, 53] ∧
    ∀ n, repairFuel scenarioRules n ([75, 97, 47, 61, 53] : List Nat) ≠
      some [97, 75, 47, 61, 53] := by
  refine ⟨by decide, by decide, ?_⟩
  intro n h
  have hval : check_rules ([75, 97, 47, 61, 53] : List Nat) scenarioRules =
      true := by decide
  cases n with
  | zero =>
    simp only [repairFuel, hval, if_true] at h
    exact absurd h (by decide)
  | succ n =>
    simp only [repairFuel, hval, if_true] at h
    exact absurd h (by decide)

/-- **C3 (amended).** Under the Scenario A rule set as listed in the
specification, `75,97,47,61,53` is already valid and the repair loop returns
it unchanged (middle `47`), while the two invalid sequences `61,13,29` and
`97,13,75,29,47` are repaired to `61,29,13` and `97,75,47,29,13` (middles
`29` and `47`); the three middles still sum to `123`. -/
theorem scenario_repair_amended :
    check_rules ([75, 97, 47, 61, 53] : List Nat) scenarioRules = true ∧
    check_rules ([61, 13, 29] : List Nat) scenarioRules = false ∧
    check_rules ([97, 13, 75, 29, 47] : List Nat) scenarioRules = false ∧
    repairFuel scenarioRules 20 ([75, 97, 47, 61, 53] : List Nat) =
      some [75, 97, 47, 61, 53] ∧
    repairFuel scenarioRules 20 ([61, 13, 29] : List Nat) = some [61, 29, 13] ∧
    repairFuel scenarioRules 20 ([97, 13, 75, 29, 47] : List Nat) =
      some [97, 75, 47, 29, 13] ∧
    extract_middle_number ([75, 97, 47, 61, 53] : List Nat) = some 47 ∧
    extract_middle_number ([61, 29, 13] : List Nat) = some 29 ∧
    extract_middle_number ([97, 75, 47, 29, 13] : List Nat) = some 47 ∧
    47 + 29 + 47 = 123 := by
  refine ⟨by decide, by decide, by decide, by decide, by decide, by decide,
    by decide, by decide, by decide, by decide⟩

/-! ## Witnesses -/

theorem repair_convergence_witness :
    ([2, 1] : List Nat).Nodup ∧
    (∀ r ∈ ([(1, 2)] : List (Nat × Nat)), r.1 ∈ ([2, 1] : List Nat) →
      r.2 ∈ ([2, 1] : List Nat) → id r.1 < id r.2) ∧
    ((∃ n t, repairFuel ([(1, 2)] : List (Nat × Nat)) n ([2, 1] : List Nat) =
        some t ∧ check_rules t [(1, 2)] = true ∧ t.Perm [2, 1]) ∧
      ((∀ a ∈ ([2, 1] : List Nat), ∀ b ∈ ([2, 1] : List Nat), a ≠ b →
          (a, b) ∈ ([(1, 2)] : List (Nat × Nat)) ∨
            (b, a) ∈ ([(1, 2)] : List (Nat × Nat))) →
        check_rules ([2, 1] : List Nat) [(1, 2)] = false →
        ∀ p q, find_rule_violation ([2, 1] : List Nat) [(1, 2)] = some (p, q) →
          outOfOrderCount [(1, 2)] (move_page_number_left ([2, 1] : List Nat) p q) <
            outOfOrderCount [(1, 2)] ([2, 1] : List Nat))) :=
  ⟨by decide, by decide,
    repair_convergence [(1, 2)] [2, 1] id (by decide) (by decide)⟩

theorem move_page_number_left_spec_witness :
    (0 : Nat) < 2 ∧ 2 < ([10, 20, 30] : List Nat).length ∧
    ((move_page_number_left ([10, 20, 30] : List Nat) 2 0).length =
        ([10, 20, 30] : List Nat).length ∧
      (∃ (h1 : 0 < (move_page_number_left ([10, 20, 30] : List Nat) 2 0).length),
        (move_page_number_left ([10, 20, 30] : List Nat) 2 0).get ⟨0, h1⟩ =
          ([10, 20, 30] : List Nat).get ⟨2, by decide⟩) ∧
      (∃ (h2 : 0 + 1 < (move_page_number_left ([10, 20, 30] : List Nat) 2 0).length),
        (move_page_number_left ([10, 20, 30] : List Nat) 2 0).get ⟨0 + 1, h2⟩ =
          ([10, 20, 30] : List Nat).get ⟨0, by decide⟩) ∧
      (move_page_number_left ([10, 20, 30] : List Nat) 2 0).eraseIdx 0 =
        ([10, 20, 30] : List Nat).eraseIdx 2) :=
  ⟨by decide, by decide,
    move_page_number_left_spec [10, 20, 30] 2 0 (by decide) (by decide)⟩

theorem find_rule_violation_spec_witness :
    ([2, 1] : List Nat).Nodup ∧
    check_rules ([2, 1] : List Nat) [(1, 2)] = false ∧
    ∃ p q, find_rule_violation ([2, 1] : List Nat) [(1, 2)] = some (p, q) ∧
      ∃ (hp : p < ([2, 1] : List Nat).length) (hq : q < p),
        (([2, 1] : List Nat).get ⟨p, hp⟩,
          ([2, 1] : List Nat).get ⟨q, Nat.lt_trans hq hp⟩) ∈
            ([(1, 2)] : List (Nat × Nat)) ∧
        ∀ j, j < p → ¬ violAt [(1, 2)] ([2, 1] : List Nat) j :=
  ⟨by decide, by decide,
    find_rule_violation_spec [(1, 2)] [2, 1] (by decide) (by decide)⟩

theorem repair_valid_identity_witness :
    check_rules ([1, 2] : List Nat) [(1, 2)] = true ∧
    repairFuel ([(1, 2)] : List (Nat × Nat)) 3 ([1, 2] : List Nat) =
      some [1, 2] :=
  ⟨by decide, repair_valid_identity [(1, 2)] [1, 2] (by decide) 3⟩

theorem read_ordering_rules_spec_witness :
    (([['4', '7', '|', '5', '3'], ['7', '5', ',', '4', '7']] : List Line).get
        ⟨1, by decide⟩).contains '|' = false ∧
    read_ordering_rules
        ([['4', '7', '|', '5', '3'], ['7', '5', ',', '4', '7']] : List Line) =
      some ([['4', '7', '|', '5', '3']], 2) :=
  by
  constructor
  · decide
  · have hgood : ∀ j (hj : j < 1),
        (([['4', '7', '|', '5', '3'], ['7', '5', ',', '4', '7']] : List Line).get
          ⟨j, Nat.lt_trans hj (by decide)⟩).contains '|' = true := by
      intro j hj
      have hj0 : j = 0 := by omega
      subst hj0
      show (([['4', '7', '|', '5', '3'], ['7', '5', ',', '4', '7']] : List Line).get
        ⟨0, by decide⟩).contains '|' = true
      decide
    exact read_ordering_rules_spec
      ([['4', '7', '|', '5', '3'], ['7', '5', ',', '4', '7']] : List Line) 1
      (by decide) (by decide) hgood

theorem extract_middle_number_spec_witness :
    ([75, 47, 61, 53, 29] : List Nat) ≠ [] ∧
    ∃ (h : ([75, 47, 61, 53, 29] : List Nat).length / 2 <
        ([75, 47, 61, 53, 29] : List Nat).length),
      extract_middle_number ([75, 47, 61, 53, 29] : List Nat) =
        some (([75, 47, 61, 53, 29] : List Nat).get
          ⟨([75, 47, 61, 53, 29] : List Nat).length / 2, h⟩) :=
  ⟨by decide,
    (@extract_middle_number_spec Nat _).1 [75, 47, 61, 53, 29] (by decide)⟩

theorem check_rules_correct_witness :
    check_rules ([2, 1] : List Nat) [(1, 2)] = true ↔
      ∀ (i j : Nat) (hij : i < j) (hj : j < ([2, 1] : List Nat).length),
        (([2, 1] : List Nat).get ⟨j, hj⟩,
          ([2, 1] : List Nat).get ⟨i, Nat.lt_trans hij hj⟩) ∉
            ([(1, 2)] : List (Nat × Nat)) :=
  check_rules_correct [(1, 2)] [2, 1]

theorem find_rule_violation_none_iff_valid_witness :
    (find_rule_violation ([2, 1] : List Nat) [(1, 2)] = none ↔
      check_rules ([2, 1] : List Nat) [(1, 2)] = true) ∧
      (check_rules ([2, 1] : List Nat) [(1, 2)] = false ↔
        ∃ pq, find_rule_violation ([2, 1] : List Nat) [(1, 2)] = some pq) :=
  find_rule_violation_none_iff_valid [(1, 2)] [2, 1]

theorem read_ordering_rules_total_iff_witness :
    (∃ l ∈ ([['4', '7', '|', '5', '3'], ['x']] : List Line),
      l.contains '|' = false) ∧
    ∃ rs, read_ordering_rules
        ([['4', '7', '|', '5', '3'], ['x']] : List Line) = some rs :=
  ⟨by decide,
    (read_ordering_rules_total_iff
      ([['4', '7', '|', '5', '3'], ['x']] : List Line)).2 (by decide)⟩

end AoC2024Day5
